import Mathlib

/-!
Verification development for the makerworld crawl/label worker
(apps/worker/src/jobs/crawl.ts, apps/worker/src/jobs/label.ts, the express
server in apps/worker/src/index.ts and the scraper in
apps/worker/src/crawler/makerworld.ts).

The embedding is shallow: job rows are records, the crawl worker pool is a
small-step machine driven by an explicit schedule of actions (each action is
one atomic segment of one async worker, the pool-exit continuation, or an
external actor touching the job row), and the database single-row updates are
pure functions on the row.
-/

namespace Biaozhu

/-- Job status values, as in db/types (crawl_jobs.status / label_jobs.status). -/
inductive JStatus
  | queued
  | running
  | paused
  | completed
  | failed
  deriving DecidableEq, Repr

/-- One crawl_jobs (or label_jobs) row, restricted to the fields the claims
are about.  Timestamps are abstracted to `Option Nat` (null / non-null with
an opaque value 0 standing for `nowIso()`). -/
structure JobRow where
  status : JStatus
  processed_count : Nat
  failed_count : Nat
  started_at : Option Nat
  finished_at : Option Nat
  last_error : Option String
  deriving DecidableEq, Repr

/-- Fresh row as inserted by POST /api/crawl-jobs (index.ts): status queued,
zero counters, null timestamps. -/
def newJobRow : JobRow :=
  { status := .queued, processed_count := 0, failed_count := 0,
    started_at := none, finished_at := none, last_error := none }

/-- The write at the top of runCrawlJob / runLabelJob:
updateStatus("running", { started_at: nowIso(), last_error: null }). -/
def opStartRun (j : JobRow) : JobRow :=
  { j with status := .running, started_at := some 0, last_error := none }

/-- POST /api/crawl-jobs/:id/pause (index.ts): sets status only. -/
def opPause (j : JobRow) : JobRow := { j with status := .paused }

/-- POST /api/crawl-jobs/:id/resume (index.ts): sets status only. -/
def opResume (j : JobRow) : JobRow := { j with status := .running }

/-- updateStatus("completed", { finished_at: nowIso() }) at the end of the run. -/
def opComplete (j : JobRow) : JobRow :=
  { j with status := .completed, finished_at := some 0 }

/-- updateStatus("failed", { finished_at: nowIso(), last_error: message }). -/
def opFail (m : String) (j : JobRow) : JobRow :=
  { j with status := .failed, finished_at := some 0, last_error := some m }

/-- set({ processed_count: sql processed_count + 1 }) after a successful scrape. -/
def incProcessed (j : JobRow) : JobRow :=
  { j with processed_count := j.processed_count + 1 }

/-- set({ failed_count: sql failed_count + 1, last_error: message }) on a
non-fatal per-item error. -/
def incFailed (m : String) (j : JobRow) : JobRow :=
  { j with failed_count := j.failed_count + 1, last_error := some m }

/-- The spec invariant of section 3: finished_at is non-null iff the status is
terminal (completed or failed). -/
def finTerminal (j : JobRow) : Prop :=
  j.finished_at ≠ none ↔ (j.status = .completed ∨ j.status = .failed)

instance (j : JobRow) : Decidable (finTerminal j) :=
  inferInstanceAs (Decidable (_ ↔ _))

/-! ### persistDiscovered (crawl.ts lines 53-81)

The discovery producer upserts each discovered candidate into `models` with
ON CONFLICT(id) DO UPDATE SET url = excluded.url,
title = COALESCE(excluded.title, title),
author_name = COALESCE(excluded.author_name, author_name),
cover_image_url = COALESCE(excluded.cover_image_url, cover_image_url).
`excluded` is the row the insert attempted, whose nullable fields come from the
candidate with null defaults. -/

/-- An ephemeral discovered candidate (the Discovered type in crawl.ts). -/
structure Discovered where
  id : String
  url : String
  cover_image_url : Option String
  title : Option String
  author_name : Option String
  deriving DecidableEq, Repr

/-- A `models` row (fields relevant to persistDiscovered). -/
structure ModelRow where
  id : String
  url : String
  title : Option String
  author_name : Option String
  download_count : Option Nat
  cover_image_url : Option String
  description : Option String
  deriving DecidableEq, Repr

/-- SQL COALESCE on two nullable values: first non-null. -/
def coalesce2 (a b : Option String) : Option String :=
  match a with
  | some x => some x
  | none => b

/-- The row persistDiscovered attempts to insert for a candidate
(crawl.ts lines 58-69); this is what `excluded` refers to on conflict. -/
def insertedRow (it : Discovered) : ModelRow :=
  { id := it.id, url := it.url, title := it.title,
    author_name := it.author_name, download_count := none,
    cover_image_url := it.cover_image_url, description := none }

/-- Effect of persistDiscovered on one identity: plain insert when the id is
new, the DO UPDATE SET clause when a row already exists. -/
def persistDiscoveredRow (existing : Option ModelRow) (it : Discovered) : ModelRow :=
  match existing with
  | none => insertedRow it
  | some r =>
    { r with
      url := (insertedRow it).url,
      title := coalesce2 (insertedRow it).title r.title,
      author_name := coalesce2 (insertedRow it).author_name r.author_name,
      cover_image_url := coalesce2 (insertedRow it).cover_image_url r.cover_image_url }

/-! ### The wake-slot work queue (crawl.ts lines 36-51, 83-95, 373-378)

`queue`/`queueIndex` hold the FIFO buffer, `discoveryDone` is the end-of-input
flag, and `wake` is the single resolver slot: a consumer that finds the buffer
empty parks itself by overwriting `wake` with its own resolver; push and the
end-of-input signal fire whatever single resolver that slot currently holds. -/

/-- Queue state. `blocked` records which consumers are currently suspended in
getNext (in blocking order); `wake` is the one resolver the slot holds. -/
structure QState where
  buf : List Nat
  qIdx : Nat
  done : Bool
  wake : Option Nat
  blocked : List Nat
  deriving DecidableEq, Repr

def qInit : QState :=
  { buf := [], qIdx := 0, done := false, wake := none, blocked := [] }

/-- Consumer c reaches the suspension point of getNext: nothing buffered and
discovery not done, so it installs its resolver in the (single) wake slot,
overwriting any resolver already there. -/
def qBlock (c : Nat) (s : QState) : QState :=
  if s.qIdx < s.buf.length then s
  else if s.done then s
  else { s with wake := some c, blocked := s.blocked ++ [c] }

/-- Fire the wake slot: resume the one consumer whose resolver it holds. -/
def fireWake (s : QState) : QState :=
  match s.wake with
  | some c => { s with wake := none, blocked := s.blocked.erase c }
  | none => s

/-- push (crawl.ts lines 43-51): append the items, then fire the wake slot
once (nothing happens on an empty batch). -/
def qPush (items : List Nat) (s : QState) : QState :=
  if items = [] then s
  else fireWake { s with buf := s.buf ++ items }

/-- End of input (crawl.ts lines 373-378): set discoveryDone, fire the slot. -/
def qClose (s : QState) : QState :=
  fireWake { s with done := true }

/-! ### The crawl worker pool as a small-step machine (crawl.ts lines 97-174, 383-395)

The run is modelled at the phase where discovery is complete: the full
candidate list (represented by the outcome each candidate's scrape would have)
is buffered and end-of-input is signalled, so getNext never suspends.  Each
worker is an async task whose progress is a program counter; an explicit
schedule (a list of actions) picks which task runs its next atomic segment.
External actors (the pause/resume endpoints, clear-history) appear as extra
actions that mutate or delete the job row between segments. -/

/-- What scrapeModelPageInContext does for one candidate: succeeds, throws a
generic error with a message, or throws CLOUDFLARE_BLOCKED. -/
inductive Outcome
  | ok
  | err (msg : String)
  | hardblock
  deriving DecidableEq, Repr

/-- Program counter of one worker (the loop body of worker() in crawl.ts):
about to run waitIfPausedOrCancelled, about to run getNext, processing the
candidate at queue position i, returned normally, or unwound by throwing
JOB_CANCELLED. -/
inductive WPC
  | check
  | take
  | work (i : Nat)
  | fin
  | finC
  deriving DecidableEq, Repr

/-- State of one crawl run: the job row as stored (none = deleted), the
outcome list standing for the buffered candidates, the shared queueIndex, the
pool size wn, each worker's program counter, and whether the code after
`await workerPromise` (or the top-level catch) has run. -/
structure CState where
  job : Option JobRow
  outs : List Outcome
  qIdx : Nat
  wn : Nat
  workers : Nat → WPC
  mainDone : Bool

/-- updateStatus("failed", ...) in the CLOUDFLARE_BLOCKED branch of the worker
(crawl.ts lines 156-159). -/
def markHardBlocked (j : JobRow) : JobRow :=
  { j with
    status := .failed,
    finished_at := some 0,
    last_error := some "CLOUDFLARE_BLOCKED" }

/-- updateStatus("completed", { finished_at }) after the pool exits
(crawl.ts line 385). -/
def markCompleted (j : JobRow) : JobRow :=
  { j with status := .completed, finished_at := some 0 }

/-- One atomic segment of worker w, or none if that worker has no enabled
segment (sleeping while paused, or already returned).
  - check: one poll of waitIfPausedOrCancelled — missing row or a status
    outside running/paused throws JOB_CANCELLED (pc finC); paused sleeps
    (no step); running proceeds to getNext.
  - take: getNext — hands out queue position qIdx if available, otherwise
    (discovery done) the worker returns.
  - work i: the scrape of candidate i together with its per-outcome row
    update, as one segment (the job-row write is a single awaited UPDATE). -/
def wStep (s : CState) (w : Nat) : Option CState :=
  if w < s.wn then
    match s.workers w with
    | .check =>
      match s.job with
      | none => some { s with workers := Function.update s.workers w .finC }
      | some j =>
        match j.status with
        | .running => some { s with workers := Function.update s.workers w .take }
        | .paused => none
        | _ => some { s with workers := Function.update s.workers w .finC }
    | .take =>
      if s.qIdx < s.outs.length then
        some { s with workers := Function.update s.workers w (.work s.qIdx), qIdx := s.qIdx + 1 }
      else
        some { s with workers := Function.update s.workers w .fin }
    | .work i =>
      match s.outs.get? i with
      | some .ok =>
        some { s with job := s.job.map incProcessed, workers := Function.update s.workers w .check }
      | some (.err m) =>
        some { s with job := s.job.map (incFailed m), workers := Function.update s.workers w .check }
      | some .hardblock =>
        some { s with job := s.job.map markHardBlocked, workers := Function.update s.workers w .fin }
      | none => none
    | .fin => none
    | .finC => none
  else none

def isFin : WPC → Bool
  | .fin => true
  | _ => false

def isFinC : WPC → Bool
  | .finC => true
  | _ => false

/-- Promise.all resolved: every worker returned normally. -/
def allFin (s : CState) : Bool :=
  (List.range s.wn).all fun w => isFin (s.workers w)

/-- Promise.all rejected: some worker threw JOB_CANCELLED. -/
def anyFinC (s : CState) : Bool :=
  (List.range s.wn).any fun w => isFinC (s.workers w)

/-- An action of the schedule: one worker segment, the continuation after the
pool settles (Promise.all), or an external actor setting/deleting the row. -/
inductive Act
  | wrk (w : Nat)
  | mainFinish
  | extSet (st : JStatus)
  | extDel
  deriving DecidableEq, Repr

/-- Run one action.  mainFinish: if some worker threw, the top-level catch
sees JOB_CANCELLED and returns with no write; if all returned normally,
updateStatus("completed") runs unconditionally.  Disabled actions are no-ops. -/
def doAct (s : CState) (a : Act) : CState :=
  match a with
  | .wrk w => (wStep s w).getD s
  | .mainFinish =>
    if s.mainDone then s
    else if anyFinC s then { s with mainDone := true }
    else if allFin s then { s with job := s.job.map markCompleted, mainDone := true }
    else s
  | .extSet st => { s with job := s.job.map fun j => { j with status := st } }
  | .extDel => { s with job := none }

def runActs (s : CState) : List Act → CState
  | [] => s
  | a :: rest => runActs (doAct s a) rest

/-- A schedule with no external interference: only worker segments and the
pool-exit continuation. -/
def Act.isInternal : Act → Bool
  | .wrk _ => true
  | .mainFinish => true
  | _ => false

def NoExt (l : List Act) : Prop := ∀ a ∈ l, a.isInternal = true

instance (l : List Act) : Decidable (NoExt l) :=
  inferInstanceAs (Decidable (∀ a ∈ l, a.isInternal = true))

/-- The row right after updateStatus("running", { started_at, last_error: null })
at the top of runCrawlJob. -/
def initRow : JobRow :=
  { status := .running, processed_count := 0, failed_count := 0,
    started_at := some 0, finished_at := none, last_error := none }

/-- Machine start: row running, full candidate list buffered, queueIndex 0,
every worker at its first status check, pool not yet settled. -/
def initState (wn : Nat) (outs : List Outcome) : CState :=
  { job := some initRow, outs := outs, qIdx := 0, wn := wn,
    workers := fun _ => .check, mainDone := false }

/-- Same, but an external actor forced the status to paused before any worker
ran its first check. -/
def pausedState (wn : Nat) (outs : List Outcome) : CState :=
  { initState wn outs with job := some { initRow with status := .paused } }

/-- The condition under which one poll of waitIfPausedOrCancelled throws
JOB_CANCELLED (crawl.ts lines 97-108, label.ts lines 59-70): the row is gone,
or its status is neither running nor paused. -/
def cancelCond : Option JobRow → Prop
  | none => True
  | some j => j.status ≠ .running ∧ j.status ≠ .paused

instance (o : Option JobRow) : Decidable (cancelCond o) :=
  match o with
  | none => .isTrue trivial
  | some _ => inferInstanceAs (Decidable (_ ∧ _))

/-! ### Recovery scheduler (index.ts, the resume closure run at listen time) -/

/-- A job row as the recovery query sees it. -/
structure RJob where
  id : Nat
  status : JStatus
  finished_at : Option Nat
  created_at : Nat
  deriving DecidableEq, Repr

/-- WHERE finished_at IS NULL AND status IN ('queued','running'). -/
def isResumable (j : RJob) : Bool :=
  match j.finished_at, j.status with
  | none, .queued => true
  | none, .running => true
  | _, _ => false

/-- One comparison step of ORDER BY created_at DESC LIMIT 1: keep the row
with the larger created_at (first seen wins ties). -/
def pickNewer (acc : Option RJob) (x : RJob) : Option RJob :=
  match acc with
  | none => some x
  | some b => if b.created_at < x.created_at then some x else some b

/-- ORDER BY created_at DESC LIMIT 1 over the resumable rows (ties broken
arbitrarily by the database; the fold keeps the first maximum). -/
def pickLatest (l : List RJob) : Option RJob :=
  (l.filter isResumable).foldl pickNewer none

/-- The boot-time recovery pass for one job kind: reset the picked job to
queued and schedule exactly one re-invocation of its loop; returns the updated
rows and the list of scheduled job ids. -/
def resumeScheduler (l : List RJob) : List RJob × List Nat :=
  match pickLatest l with
  | none => (l, [])
  | some j =>
    (l.map fun x => if x.id = j.id then { x with status := .queued } else x, [j.id])

/-! ### Worker-pool size (crawl.ts line 173)

concurrency = Math.max(1, Math.min(5, Number(config.concurrency) || 1)).
config is JSON.parsed, so the field is a JSON number or missing; the
POST /api/crawl-jobs schema guarantees an integer, and Number(undefined) is
NaN.  NaN and 0 are falsy, so the || 1 replaces them with 1. -/

/-- The stored concurrency value as JavaScript coerces it: missing field,
NaN, or an integer. -/
inductive JNum
  | undef
  | nan
  | int (n : Int)
  deriving DecidableEq, Repr

/-- Number(config.concurrency) || 1. -/
def numberOrOne : JNum → Int
  | .undef => 1
  | .nan => 1
  | .int n => if n = 0 then 1 else n

/-- The pool size actually used to spawn workers. -/
def crawlConcurrency (v : JNum) : Int :=
  max 1 (min 5 (numberOrOne v))

/-- The pool size as claim C9 words it: the value clamped into [1,5] when it
coerces to a positive number, and 1 otherwise. -/
def claimedConcurrency : JNum → Int
  | .int n => if 0 < n then min 5 n else 1
  | _ => 1

/-! ### Label-job session credentials (label.ts lines 29-39, makerworld.ts 50-65) -/

/-- The label job's own stored config (LabelJobConfig in label.ts): only a
candidate cap, no credential field. -/
structure LabelJobConfig where
  limit : Option Nat
  deriving DecidableEq, Repr

/-- Result of JSON.parse on the latest crawl job's config_json, restricted to
its cookieHeader field: the parse throws, or the field is absent, a string, or
some non-string value. -/
inductive CrawlCfgParse
  | parseError
  | parsed (cookieHeader : Option String)
  | parsedNonString
  deriving DecidableEq, Repr

/-- The cookieHeader computation in runLabelJob: take the most recent crawl
job's config when it parses and its cookieHeader is a string, else undefined.
The input is none when no crawl job exists at all. -/
def cookieFromLatestCrawl : Option CrawlCfgParse → Option String
  | none => none
  | some .parseError => none
  | some (.parsed (some s)) => some s
  | some (.parsed none) => none
  | some .parsedNonString => none

/-- createContext (makerworld.ts lines 50-65): the extra cookie header is set
only when options.cookieHeader is truthy (a nonempty string). -/
def contextCookieHeader : Option String → Option String
  | some s => if s = "" then none else some s
  | none => none

/-- The cookie header the label run's browser context ends up with. -/
def labelRunCookie (latest : Option CrawlCfgParse) : Option String :=
  contextCookieHeader (cookieFromLatestCrawl latest)

/-! ### Bookkeeping for the worker-pool proofs -/

/-- Is queue position i currently held by some worker of the pool described by
(wn, f)? -/
def inFlightF (wn : Nat) (f : Nat → WPC) (i : Nat) : Bool :=
  (List.range wn).any fun w => decide (f w = .work i)

def inFlightB (s : CState) (i : Nat) : Bool := inFlightF s.wn s.workers i

/-- Queue positions already handed out and no longer in flight: exactly the
candidates whose per-item row update has been applied. -/
def completedIdx (s : CState) : Finset Nat :=
  (Finset.range s.qIdx).filter fun i => inFlightB s i = false

def isOkAt (outs : List Outcome) (i : Nat) : Bool :=
  match outs.get? i with
  | some .ok => true
  | _ => false

def isErrAt (outs : List Outcome) (i : Nat) : Bool :=
  match outs.get? i with
  | some (.err _) => true
  | _ => false

def okCnt (s : CState) : Nat :=
  ((completedIdx s).filter fun i => isOkAt s.outs i = true).card

def errCnt (s : CState) : Nat :=
  ((completedIdx s).filter fun i => isErrAt s.outs i = true).card

/-- No candidate scrape hits the Cloudflare challenge. -/
def NoHB (outs : List Outcome) : Prop := ∀ o ∈ outs, o ≠ .hardblock

instance (outs : List Outcome) : Decidable (NoHB outs) :=
  inferInstanceAs (Decidable (∀ o ∈ outs, o ≠ Outcome.hardblock))

/-- Run invariant of the crawl worker pool under internal-only schedules with
no hard block: counters always equal the number of ok / err candidates whose
processing has completed, work indices are in range and held by at most one
worker, a normally-returned worker implies the queue was exhausted, and no
worker has been cancelled. -/
structure CInv (outs : List Outcome) (s : CState) : Prop where
  houts : s.outs = outs
  hq : s.qIdx ≤ outs.length
  hbound : ∀ w, w < s.wn → ∀ i, s.workers w = .work i → i < s.qIdx
  hinj : ∀ w1, w1 < s.wn → ∀ w2, w2 < s.wn → ∀ i,
    s.workers w1 = .work i → s.workers w2 = .work i → w1 = w2
  hnoC : ∀ w, w < s.wn → s.workers w ≠ .finC
  hfin : ∀ w, w < s.wn → s.workers w = .fin → s.qIdx = outs.length
  hjob : ∃ j, s.job = some j ∧ j.processed_count = okCnt s ∧
    j.failed_count = errCnt s ∧
    (s.mainDone = false → j.status = .running ∧ j.finished_at = none) ∧
    (s.mainDone = true → j.status = .completed ∧ j.finished_at = some 0)
  hmain : s.mainDone = true → ∀ w, w < s.wn → s.workers w = .fin

/-! ## Theorems -/

/-- C2 counterexample.  The claim says the first sighting wins for title: a
second sighting of id 1 carrying a different non-null title should leave the
stored title unchanged.  The DO UPDATE SET clause is
COALESCE(excluded.title, title), which prefers the incoming value, so the
second sighting overwrites the populated title. -/
theorem C2_first_sighting_counterexample :
    (persistDiscoveredRow
      (some (persistDiscoveredRow none
        { id := "1", url := "https://makerworld.com/zh/models/1",
          cover_image_url := none, title := some "First title", author_name := none }))
      { id := "1", url := "https://makerworld.com/zh/models/1",
        cover_image_url := none, title := some "Second title", author_name := none }).title
    = some "Second title" := rfl

/-- C2 amended: when a later sighting of an already-stored identity is
persisted, each of title / author_name / cover_image_url is overwritten by the
later sighting whenever the later sighting carries a non-null value (latest
non-null sighting wins, not the first), is kept when the later sighting
carries null, and is never cleared from populated to null; url is always
overwritten and download_count / description are untouched. -/
theorem C2_later_sighting_merge (r : ModelRow) (it : Discovered) :
    ((∀ t, it.title = some t → (persistDiscoveredRow (some r) it).title = some t) ∧
      (it.title = none → (persistDiscoveredRow (some r) it).title = r.title) ∧
      (r.title ≠ none → (persistDiscoveredRow (some r) it).title ≠ none)) ∧
    ((∀ t, it.author_name = some t →
        (persistDiscoveredRow (some r) it).author_name = some t) ∧
      (it.author_name = none →
        (persistDiscoveredRow (some r) it).author_name = r.author_name) ∧
      (r.author_name ≠ none → (persistDiscoveredRow (some r) it).author_name ≠ none)) ∧
    ((∀ t, it.cover_image_url = some t →
        (persistDiscoveredRow (some r) it).cover_image_url = some t) ∧
      (it.cover_image_url = none →
        (persistDiscoveredRow (some r) it).cover_image_url = r.cover_image_url) ∧
      (r.cover_image_url ≠ none →
        (persistDiscoveredRow (some r) it).cover_image_url ≠ none)) ∧
    (persistDiscoveredRow (some r) it).url = it.url ∧
    (persistDiscoveredRow (some r) it).download_count = r.download_count ∧
    (persistDiscoveredRow (some r) it).description = r.description := by
  refine ⟨⟨?_, ?_, ?_⟩, ⟨?_, ?_, ?_⟩, ⟨?_, ?_, ?_⟩, rfl, rfl, rfl⟩
  · intro t ht; simp [persistDiscoveredRow, insertedRow, coalesce2, ht]
  · intro ht; simp [persistDiscoveredRow, insertedRow, coalesce2, ht]
  · intro hr
    cases ht : it.title with
    | none => simpa [persistDiscoveredRow, insertedRow, coalesce2, ht] using hr
    | some t => simp [persistDiscoveredRow, insertedRow, coalesce2, ht]
  · intro t ht; simp [persistDiscoveredRow, insertedRow, coalesce2, ht]
  · intro ht; simp [persistDiscoveredRow, insertedRow, coalesce2, ht]
  · intro hr
    cases ht : it.author_name with
    | none => simpa [persistDiscoveredRow, insertedRow, coalesce2, ht] using hr
    | some t => simp [persistDiscoveredRow, insertedRow, coalesce2, ht]
  · intro t ht; simp [persistDiscoveredRow, insertedRow, coalesce2, ht]
  · intro ht; simp [persistDiscoveredRow, insertedRow, coalesce2, ht]
  · intro hr
    cases ht : it.cover_image_url with
    | none => simpa [persistDiscoveredRow, insertedRow, coalesce2, ht] using hr
    | some t => simp [persistDiscoveredRow, insertedRow, coalesce2, ht]

/-- C2 amended, witness at a concrete row and sighting. -/
theorem C2_later_sighting_merge_witness :
    (persistDiscoveredRow
      (some { id := "1", url := "u1", title := some "A", author_name := some "auth",
              download_count := some 7, cover_image_url := none, description := none })
      { id := "1", url := "u2", cover_image_url := some "c",
        title := some "B", author_name := none }).title = some "B" :=
  (C2_later_sighting_merge
    { id := "1", url := "u1", title := some "A", author_name := some "auth",
      download_count := some 7, cover_image_url := none, description := none }
    { id := "1", url := "u2", cover_image_url := some "c",
      title := some "B", author_name := none }).1.1 "B" rfl

/-- C4.  Two consumers block on the empty queue (concurrency at least 2);
consumer 0 parks first, consumer 1 parks next and overwrites the single wake
slot.  A push then wakes only consumer 1, and the end-of-input signal finds
the slot holding nothing for consumer 0: consumer 0 is still suspended after
both the push and the close, refuting wake-exactly-once.  In the program this
leaves Promise.all pending, so the pool never exits. -/
theorem C4_lost_wakeup :
    (qPush [7] (qBlock 1 (qBlock 0 qInit))).blocked = [0] ∧
    (qClose (qPush [7] (qBlock 1 (qBlock 0 qInit)))).blocked = [0] := by
  refine ⟨rfl, rfl⟩

/-- C8 counterexample.  The pause endpoint writes status = paused with no
guard on the current status: applied to a completed job (finished_at set) it
yields a paused row whose finished_at is non-null, breaking the invariant. -/
theorem C8_pause_after_finish_counterexample :
    ¬ finTerminal (opPause (opComplete newJobRow)) := by decide

/-- C8 amended: the invariant (finished_at non-null iff status terminal) holds
for a fresh row and is preserved by completion, failure and the per-item
counter updates unconditionally, and by job start and the pause/resume status
flips provided the row is not already terminal; pause/resume applied to a
terminal row break it (see the counterexample). -/
theorem C8_lifecycle_preserves_invariant (j : JobRow) (m : String)
    (hj : finTerminal j) :
    finTerminal newJobRow ∧
    finTerminal (opComplete j) ∧
    finTerminal (opFail m j) ∧
    finTerminal (incProcessed j) ∧
    finTerminal (incFailed m j) ∧
    (j.status ≠ .completed → j.status ≠ .failed →
      finTerminal (opStartRun j) ∧ finTerminal (opPause j) ∧ finTerminal (opResume j)) := by
  refine ⟨by decide, ?_, ?_, ?_, ?_, ?_⟩
  · simp [finTerminal, opComplete]
  · simp [finTerminal, opFail]
  · simpa [finTerminal, incProcessed] using hj
  · simpa [finTerminal, incFailed] using hj
  · intro h1 h2
    have hfin : j.finished_at = none := by
      cases hf : j.finished_at with
      | none => rfl
      | some v =>
        rcases hj.mp (by simp [hf]) with hc | hc
        · exact absurd hc h1
        · exact absurd hc h2
    refine ⟨?_, ?_, ?_⟩ <;> simp [finTerminal, opStartRun, opPause, opResume, hfin]

/-- C8 amended, witness: a fresh queued row satisfies the invariant and the
pause flip preserves it there. -/
theorem C8_lifecycle_preserves_invariant_witness :
    finTerminal (opPause newJobRow) :=
  ((C8_lifecycle_preserves_invariant newJobRow "e" (by decide)).2.2.2.2.2
    (by decide) (by decide)).2.1

/-- C9: the number of workers spawned is Number(concurrency) || 1 clamped by
Math.max(1, Math.min(5, _)), which equals the stored value clamped into [1,5]
when it coerces to a positive number and 1 otherwise (missing, NaN, 0, or
negative), and always lies in [1,5].  The POST /api/crawl-jobs schema only
stores integers, so JSON numbers are modelled as integers. -/
theorem C9_concurrency_clamped (v : JNum) :
    crawlConcurrency v = claimedConcurrency v ∧
    1 ≤ crawlConcurrency v ∧ crawlConcurrency v ≤ 5 := by
  cases v with
  | undef => refine ⟨rfl, by decide, by decide⟩
  | nan => refine ⟨rfl, by decide, by decide⟩
  | int n =>
    simp only [crawlConcurrency, claimedConcurrency, numberOrOne]
    by_cases h0 : n = 0
    · subst h0; refine ⟨by decide, by decide, by decide⟩
    · simp only [if_neg h0]
      constructor
      · by_cases hp : 0 < n
        · rw [if_pos hp]; omega
        · rw [if_neg hp]; omega
      · omega

/-- C10: the label run's browser context takes its cookie header from the
config of the most recently created crawl job — extracted exactly when that
config parses and carries a string cookieHeader (and set on the context when
nonempty, by JS truthiness) — and the label job's own config consists of the
candidate cap alone, so it carries no session credential. -/
theorem C10_label_cookie_provenance (latest : Option CrawlCfgParse) :
    (∀ s, cookieFromLatestCrawl latest = some s ↔ latest = some (.parsed (some s))) ∧
    (cookieFromLatestCrawl latest = none → labelRunCookie latest = none) ∧
    (∀ s, latest = some (.parsed (some s)) → s ≠ "" → labelRunCookie latest = some s) ∧
    (∀ c1 c2 : LabelJobConfig, c1.limit = c2.limit → c1 = c2) := by
  refine ⟨?_, ?_, ?_, ?_⟩
  · intro s
    cases latest with
    | none => simp [cookieFromLatestCrawl]
    | some p =>
      cases p with
      | parseError => simp [cookieFromLatestCrawl]
      | parsedNonString => simp [cookieFromLatestCrawl]
      | parsed o => cases o <;> simp [cookieFromLatestCrawl]
  · intro h; simp [labelRunCookie, h, contextCookieHeader]
  · intro s hs hne
    simp [labelRunCookie, hs, cookieFromLatestCrawl, contextCookieHeader, hne]
  · intro c1 c2 h; cases c1; cases c2; simp_all

/-- C10 witness: with the latest crawl config parsing to a nonempty string
cookieHeader, the label context uses exactly that string. -/
theorem C10_label_cookie_provenance_witness :
    labelRunCookie (some (.parsed (some "token=1"))) = some "token=1" :=
  (C10_label_cookie_provenance (some (.parsed (some "token=1")))).2.2.1
    "token=1" rfl (by decide)

/-- A fold with pickNewer yields either the accumulator or a list element. -/
theorem pickNewer_foldl_mem (l : List RJob) :
    ∀ (acc : Option RJob) (j : RJob),
      l.foldl pickNewer acc = some j → acc = some j ∨ j ∈ l := by
  induction l with
  | nil => intro acc j h; exact .inl h
  | cons x rest ih =>
    intro acc j h
    rcases ih (pickNewer acc x) j h with h2 | h2
    · cases acc with
      | none =>
        simp only [pickNewer, Option.some.injEq] at h2
        exact .inr (h2 ▸ List.mem_cons_self x rest)
      | some b =>
        by_cases hlt : b.created_at < x.created_at
        · simp only [pickNewer, if_pos hlt, Option.some.injEq] at h2
          exact .inr (h2 ▸ List.mem_cons_self x rest)
        · simp only [pickNewer, if_neg hlt] at h2
          exact .inl h2
    · exact .inr (List.mem_cons_of_mem x h2)

/-- A fold with pickNewer dominates the accumulator and every list element in
created_at. -/
theorem pickNewer_foldl_ge (l : List RJob) :
    ∀ (acc : Option RJob) (j : RJob),
      l.foldl pickNewer acc = some j →
      (∀ b, acc = some b → b.created_at ≤ j.created_at) ∧
      ∀ x ∈ l, x.created_at ≤ j.created_at := by
  induction l with
  | nil =>
    intro acc j h
    refine ⟨fun b hb => ?_, by simp⟩
    rw [hb] at h; cases h; exact le_refl _
  | cons x rest ih =>
    intro acc j h
    obtain ⟨hacc, hrest⟩ := ih (pickNewer acc x) j h
    have hx : x.created_at ≤ j.created_at := by
      cases hac : acc with
      | none => exact hacc x (by simp [hac, pickNewer])
      | some b =>
        by_cases hlt : b.created_at < x.created_at
        · exact hacc x (by simp [hac, pickNewer, if_pos hlt])
        · exact le_trans (by omega) (hacc b (by simp [hac, pickNewer, if_neg hlt]))
    refine ⟨fun b hb => ?_, ?_⟩
    · subst hb
      by_cases hlt : b.created_at < x.created_at
      · exact le_trans (le_of_lt hlt) hx
      · exact hacc b (by simp [pickNewer, if_neg hlt])
    · intro y hy
      rcases List.mem_cons.mp hy with hy | hy
      · exact hy ▸ hx
      · exact hrest y hy

/-- A fold with pickNewer never drops back to none from a some accumulator. -/
theorem pickNewer_foldl_ne_none (l : List RJob) :
    ∀ (b : RJob), l.foldl pickNewer (some b) ≠ none := by
  induction l with
  | nil => intro b h; cases h
  | cons x rest ih =>
    intro b h
    by_cases hlt : b.created_at < x.created_at
    · exact ih x (by simpa [pickNewer, if_pos hlt] using h)
    · exact ih b (by simpa [pickNewer, if_neg hlt] using h)

/-- C7: at process start, for one job kind, the recovery pass picks the most
recently created row with finished_at null and status in queued or running,
resets exactly that row to queued and schedules exactly one re-invocation;
when the pick exists every other row — in particular any completed row — is
untouched, and when no row qualifies nothing changes and nothing is
scheduled.  Row ids are assumed unique (they are database primary keys). -/
theorem C7_recovery_scheduler (l : List RJob) (hids : (l.map RJob.id).Nodup) :
    (∀ j, pickLatest l = some j →
      isResumable j = true ∧ j ∈ l ∧
      (∀ x ∈ l, isResumable x = true → x.created_at ≤ j.created_at) ∧
      (resumeScheduler l).2 = [j.id] ∧
      (∀ i x, l.get? i = some x → x.id ≠ j.id →
        (resumeScheduler l).1.get? i = some x) ∧
      (∀ i x, l.get? i = some x → x.id = j.id →
        (resumeScheduler l).1.get? i = some { x with status := JStatus.queued })) ∧
    (pickLatest l = none → resumeScheduler l = (l, [])) ∧
    (∀ i x, l.get? i = some x → x.status = .completed →
      (resumeScheduler l).1.get? i = some x ∧ x.id ∉ (resumeScheduler l).2) := by
  refine ⟨?_, ?_, ?_⟩
  · intro j hj
    have hmem : j ∈ l.filter isResumable := by
      rcases pickNewer_foldl_mem (l.filter isResumable) none j hj with h | h
      · cases h
      · exact h
    have hres : isResumable j = true := (List.mem_filter.mp hmem).2
    have hinl : j ∈ l := (List.mem_filter.mp hmem).1
    refine ⟨hres, hinl, ?_, ?_, ?_, ?_⟩
    · intro x hx hxr
      exact (pickNewer_foldl_ge (l.filter isResumable) none j hj).2 x
        (List.mem_filter.mpr ⟨hx, hxr⟩)
    · simp [resumeScheduler, hj]
    · intro i x hget hne
      simp only [resumeScheduler, hj, List.get?_map, hget, Option.map_some]
      simp [hne]
    · intro i x hget heq
      simp only [resumeScheduler, hj, List.get?_map, hget, Option.map_some]
      simp [heq]
  · intro hnone
    simp [resumeScheduler, hnone]
  · intro i x hget hcomp
    have hinl : x ∈ l := List.get?_mem hget
    cases hp : pickLatest l with
    | none =>
      simp only [resumeScheduler, hp]
      exact ⟨hget, by simp⟩
    | some j =>
      have hmem : j ∈ l.filter isResumable := by
        rcases pickNewer_foldl_mem (l.filter isResumable) none j hp with h | h
        · cases h
        · exact h
      have hres : isResumable j = true := (List.mem_filter.mp hmem).2
      have hjnl : j ∈ l := (List.mem_filter.mp hmem).1
      have hne : x.id ≠ j.id := by
        intro hxy
        have hxj : x = j := List.inj_on_of_nodup_map hids hinl hjnl hxy
        rw [← hxj] at hres
        simp [isResumable, hcomp] at hres
      constructor
      · simp only [resumeScheduler, hp, List.get?_map, hget, Option.map_some]
        simp [hne]
      · simp [resumeScheduler, hp, hne]

/-- C7 witness: one unfinished running job and one completed job; recovery
resets the running one to queued, schedules it once, leaves the completed one
alone. -/
theorem C7_recovery_scheduler_witness :
    (resumeScheduler
      [{ id := 1, status := .running, finished_at := none, created_at := 5 },
       { id := 2, status := .completed, finished_at := some 3, created_at := 9 }]).2
      = [1] ∧
    (resumeScheduler
      [{ id := 1, status := .running, finished_at := none, created_at := 5 },
       { id := 2, status := .completed, finished_at := some 3, created_at := 9 }]).1.get? 1
      = some { id := 2, status := .completed, finished_at := some 3, created_at := 9 } :=
  ⟨((C7_recovery_scheduler
      [{ id := 1, status := .running, finished_at := none, created_at := 5 },
       { id := 2, status := .completed, finished_at := some 3, created_at := 9 }]
      (by decide)).1
      { id := 1, status := .running, finished_at := none, created_at := 5 }
      (by decide)).2.2.2.1,
   (((C7_recovery_scheduler
      [{ id := 1, status := .running, finished_at := none, created_at := 5 },
       { id := 2, status := .completed, finished_at := some 3, created_at := 9 }]
      (by decide)).2.2 1
      { id := 2, status := .completed, finished_at := some 3, created_at := 9 }
      (by decide) rfl).1)⟩

/-- C1 (code bug).  Run with concurrency 1 and a single candidate whose
scrape throws CLOUDFLARE_BLOCKED.  The worker writes status failed with
finished_at and last_error set and returns normally (second conjunct shows
the state right before the pool settles); but Promise.all then resolves and
the continuation runs updateStatus("completed") unconditionally, so the run
ends with status completed — the hard-block failed status does not survive,
contradicting the claim (and section 4.4 of the spec).  last_error still
holds CLOUDFLARE_BLOCKED. -/
theorem C1_hardblock_overwritten_by_completed :
    (runActs (initState 1 [Outcome.hardblock])
        [Act.wrk 0, Act.wrk 0, Act.wrk 0]).job
      = some { status := .failed, processed_count := 0, failed_count := 0,
               started_at := some 0, finished_at := some 0,
               last_error := some "CLOUDFLARE_BLOCKED" } ∧
    (runActs (initState 1 [Outcome.hardblock])
        [Act.wrk 0, Act.wrk 0, Act.wrk 0, Act.mainFinish]).job
      = some { status := .completed, processed_count := 0, failed_count := 0,
               started_at := some 0, finished_at := some 0,
               last_error := some "CLOUDFLARE_BLOCKED" } := ⟨rfl, rfl⟩

/-- C6 counterexample.  Two workers; worker 0 passes its status check and
dequeues candidate 0; an external actor then flips the status to queued;
worker 1 observes the divergence at its check and throws JOB_CANCELLED
(program counter finC, no write — second conjunct).  But worker 0 is still in
flight and its catch block then increments failed_count and writes last_error
— a counter write to the job record after Cancelled was raised, contradicting
the claim that nothing is written afterward. -/
theorem C6_counterexample_inflight_write :
    ((runActs (initState 2 [Outcome.err "net", Outcome.ok])
        [Act.wrk 0, Act.wrk 0, Act.extSet .queued, Act.wrk 1]).workers 1 = .finC) ∧
    ((runActs (initState 2 [Outcome.err "net", Outcome.ok])
        [Act.wrk 0, Act.wrk 0, Act.extSet .queued, Act.wrk 1]).job
      = some { status := .queued, processed_count := 0, failed_count := 0,
               started_at := some 0, finished_at := none, last_error := none }) ∧
    ((runActs (initState 2 [Outcome.err "net", Outcome.ok])
        [Act.wrk 0, Act.wrk 0, Act.extSet .queued, Act.wrk 1, Act.wrk 0]).job
      = some { status := .queued, processed_count := 0, failed_count := 1,
               started_at := some 0, finished_at := none,
               last_error := some "net" }) := ⟨rfl, rfl, rfl⟩

/-- Every result of a worker segment changes the job row at most through a
single-row UPDATE of the existing row (an Option.map). -/
theorem doAct_job_none (s : CState) (a : Act) (h : s.job = none) :
    (doAct s a).job = none := by
  cases a with
  | wrk w =>
    show ((wStep s w).getD s).job = none
    cases hs : wStep s w with
    | none => simp [hs, h]
    | some s2 =>
      simp only [hs, Option.getD_some]
      unfold wStep at hs
      rw [h] at hs
      repeat' split at hs
      all_goals cases hs <;> simp [h]
  | mainFinish =>
    simp only [doAct]
    repeat' split
    all_goals simp [h]
  | extSet st => simp [doAct, h]
  | extDel => simp [doAct]

/-- A deleted job row is never written again by any schedule. -/
theorem runActs_job_none (acts : List Act) :
    ∀ s : CState, s.job = none → (runActs s acts).job = none := by
  induction acts with
  | nil => intro s h; exact h
  | cons a rest ih => intro s h; exact ih (doAct s a) (doAct_job_none s a h)

/-- C6 amended: the cancellation-unwinding path itself writes nothing.
When one poll of the control-loop check finds the row missing or its status
outside running/paused (cancelCond), the observing worker moves to the
cancelled state changing neither the job row nor the queue index; the
top-level catch of JOB_CANCELLED settles the run without any write; and if
the record is missing, no later step of any schedule ever writes it.
(Workers already processing an item may still apply that one per-item write
before they observe the cancellation — see the counterexample.) -/
theorem C6_cancel_unwinds_silently (s : CState) (w : Nat) (acts : List Act) :
    (w < s.wn → s.workers w = .check → cancelCond s.job →
      (doAct s (.wrk w)).job = s.job ∧
      (doAct s (.wrk w)).workers w = .finC ∧
      (doAct s (.wrk w)).qIdx = s.qIdx) ∧
    (s.mainDone = false → anyFinC s = true →
      (doAct s .mainFinish).job = s.job ∧ (doAct s .mainFinish).mainDone = true) ∧
    (s.job = none → (runActs s acts).job = none) := by
  refine ⟨?_, ?_, fun h => runActs_job_none acts s h⟩
  · intro hw hpc hcc
    have hstep : doAct s (.wrk w)
        = { s with workers := Function.update s.workers w .finC } := by
      show (wStep s w).getD s = _
      cases hj : s.job with
      | none => simp [wStep, hpc, hw, hj]
      | some j =>
        rw [hj] at hcc
        have hcc2 : j.status ≠ .running ∧ j.status ≠ .paused := hcc
        cases hst : j.status with
        | running => exact absurd hst hcc2.1
        | paused => exact absurd hst hcc2.2
        | queued => simp [wStep, hpc, hst, hw, hj]
        | completed => simp [wStep, hpc, hst, hw, hj]
        | failed => simp [wStep, hpc, hst, hw, hj]
    rw [hstep]
    exact ⟨rfl, Function.update_same w _ s.workers, rfl⟩
  · intro hmd hfc
    simp [doAct, hmd, hfc]

/-- C6 amended, witness: a job whose status was externally flipped to queued;
the observing worker cancels without touching the row, the settled pool
writes nothing, and a deleted row stays unwritten. -/
theorem C6_cancel_unwinds_silently_witness :
    ((doAct { job := some { initRow with status := JStatus.queued }, outs := [],
              qIdx := 0, wn := 1, workers := fun _ => WPC.check,
              mainDone := false } (.wrk 0)).job
      = some { initRow with status := JStatus.queued }) ∧
    ((runActs { job := none, outs := [], qIdx := 0, wn := 1,
                workers := fun _ => WPC.check, mainDone := false }
        [Act.extSet .running, Act.wrk 0]).job = none) ∧
    ((doAct { job := some initRow, outs := [], qIdx := 0, wn := 1,
              workers := fun _ => WPC.finC, mainDone := false }
        Act.mainFinish).mainDone = true) :=
  ⟨((C6_cancel_unwinds_silently
      { job := some { initRow with status := JStatus.queued }, outs := [],
        qIdx := 0, wn := 1, workers := fun _ => WPC.check, mainDone := false }
      0 []).1 (by decide) rfl (by decide)).1,
   ((C6_cancel_unwinds_silently
      { job := none, outs := [], qIdx := 0, wn := 1,
        workers := fun _ => WPC.check, mainDone := false }
      0 [Act.extSet .running, Act.wrk 0]).2.2 rfl),
   ((C6_cancel_unwinds_silently
      { job := some initRow, outs := [], qIdx := 0, wn := 1,
        workers := fun _ => WPC.finC, mainDone := false }
      0 []).2.1 rfl rfl).2⟩

/-! ### Worker-pool invariant lemmas -/

theorem bool_ext (a b : Bool) (h : a = true ↔ b = true) : a = b := by
  cases a <;> cases b <;> simp_all

theorem inFlight_iff (wn : Nat) (f : Nat → WPC) (i : Nat) :
    inFlightF wn f i = true ↔ ∃ w, w < wn ∧ f w = .work i := by
  simp [inFlightF, List.any_eq_true, List.mem_range]

theorem inFlight_update_nonwork (wn w : Nat) (f : Nat → WPC) (pc : WPC)
    (hold : ∀ i, f w ≠ .work i) (hnew : ∀ i, pc ≠ .work i) (i : Nat) :
    inFlightF wn (Function.update f w pc) i = inFlightF wn f i := by
  apply bool_ext
  rw [inFlight_iff, inFlight_iff]
  constructor
  · rintro ⟨w2, hw2, hfe⟩
    by_cases he : w2 = w
    · subst he; rw [Function.update_same] at hfe; exact absurd hfe (hnew i)
    · rw [Function.update_noteq he] at hfe; exact ⟨w2, hw2, hfe⟩
  · rintro ⟨w2, hw2, hfe⟩
    by_cases he : w2 = w
    · subst he; exact absurd hfe (hold i)
    · exact ⟨w2, hw2, by rwa [Function.update_noteq he]⟩

theorem inFlight_update_to_work (wn w j0 : Nat) (f : Nat → WPC)
    (hw : w < wn) (hold : ∀ i, f w ≠ .work i) (i : Nat) :
    inFlightF wn (Function.update f w (.work j0)) i
      = (inFlightF wn f i || decide (i = j0)) := by
  apply bool_ext
  simp only [Bool.or_eq_true, decide_eq_true_eq, inFlight_iff]
  constructor
  · rintro ⟨w2, hw2, hfe⟩
    by_cases he : w2 = w
    · subst he; rw [Function.update_same] at hfe
      right; injection hfe with hji; omega
    · rw [Function.update_noteq he] at hfe; exact .inl ⟨w2, hw2, hfe⟩
  · rintro (⟨w2, hw2, hfe⟩ | heq)
    · by_cases he : w2 = w
      · subst he; exact absurd hfe (hold i)
      · exact ⟨w2, hw2, by rwa [Function.update_noteq he]⟩
    · subst heq; exact ⟨w, hw, by rw [Function.update_same]⟩

theorem inFlight_update_from_work (wn w j0 : Nat) (f : Nat → WPC) (pc : WPC)
    (hw : w < wn) (hold : f w = .work j0) (hnew : ∀ i, pc ≠ .work i)
    (hinj : ∀ w2, w2 < wn → f w2 = .work j0 → w2 = w) (i : Nat) :
    inFlightF wn (Function.update f w pc) i
      = (inFlightF wn f i && ! decide (i = j0)) := by
  apply bool_ext
  simp only [Bool.and_eq_true, Bool.not_eq_eq_eq_not, Bool.not_true,
    decide_eq_false_iff_not, inFlight_iff]
  constructor
  · rintro ⟨w2, hw2, hfe⟩
    by_cases he : w2 = w
    · subst he; rw [Function.update_same] at hfe; exact absurd hfe (hnew i)
    · rw [Function.update_noteq he] at hfe
      refine ⟨⟨w2, hw2, hfe⟩, fun heq => ?_⟩
      subst heq
      exact he (hinj w2 hw2 hfe)
  · rintro ⟨⟨w2, hw2, hfe⟩, hne⟩
    by_cases he : w2 = w
    · subst he
      rw [hold] at hfe
      injection hfe with hji
      exact absurd hji.symm hne
    · exact ⟨w2, hw2, by rwa [Function.update_noteq he]⟩

theorem completedIdx_congr (s s2 : CState) (hq : s2.qIdx = s.qIdx)
    (hf : ∀ i, inFlightB s2 i = inFlightB s i) :
    completedIdx s2 = completedIdx s := by
  unfold completedIdx
  rw [hq]
  exact Finset.filter_congr fun i _ => by rw [hf i]

theorem okCnt_congr (s s2 : CState) (hidx : completedIdx s2 = completedIdx s)
    (houts : s2.outs = s.outs) : okCnt s2 = okCnt s := by
  unfold okCnt; rw [houts, hidx]

theorem errCnt_congr (s s2 : CState) (hidx : completedIdx s2 = completedIdx s)
    (houts : s2.outs = s.outs) : errCnt s2 = errCnt s := by
  unfold errCnt; rw [houts, hidx]

/-- Worker segments never change the pool size. -/
theorem wStep_wn (s : CState) (w : Nat) (s2 : CState) (h : wStep s w = some s2) :
    s2.wn = s.wn := by
  unfold wStep at h
  repeat' split at h
  all_goals cases h <;> rfl

theorem doAct_wn (s : CState) (a : Act) : (doAct s a).wn = s.wn := by
  cases a with
  | wrk w =>
    show ((wStep s w).getD s).wn = s.wn
    cases hs : wStep s w with
    | none => rfl
    | some s2 => simpa using wStep_wn s w s2 hs
  | mainFinish =>
    simp only [doAct]
    repeat' split
    all_goals rfl
  | extSet st => rfl
  | extDel => rfl

theorem runActs_wn (acts : List Act) : ∀ s : CState, (runActs s acts).wn = s.wn := by
  induction acts with
  | nil => intro s; rfl
  | cons a rest ih => intro s; rw [runActs, ih (doAct s a), doAct_wn]

theorem isFin_true_iff (pc : WPC) : isFin pc = true ↔ pc = .fin := by
  cases pc <;> simp [isFin]

theorem isFinC_true_iff (pc : WPC) : isFinC pc = true ↔ pc = .finC := by
  cases pc <;> simp [isFinC]

theorem allFin_true_iff (s : CState) :
    allFin s = true ↔ ∀ w, w < s.wn → s.workers w = .fin := by
  simp [allFin, List.all_eq_true, List.mem_range, isFin_true_iff]

theorem anyFinC_true_iff (s : CState) :
    anyFinC s = true ↔ ∃ w, w < s.wn ∧ s.workers w = .finC := by
  simp [anyFinC, List.any_eq_true, List.mem_range, isFinC_true_iff]

theorem band_false_cases (a b : Bool) (h : (a && b) = false) :
    a = false ∨ b = false := by
  cases a <;> simp_all

theorem bor_false_parts (a b : Bool) (h : (a || b) = false) :
    a = false ∧ b = false := by
  cases a <;> simp_all

/-- One internal action preserves the worker-pool invariant, provided no
candidate outcome is a hard block. -/
theorem CInv_doAct (outs : List Outcome) (s : CState) (a : Act)
    (hhb : NoHB outs) (hInv : CInv outs s) (hint : a.isInternal = true) :
    CInv outs (doAct s a) := by
  obtain ⟨houts, hq, hbound, hinj, hnoC, hfin, ⟨j, hj, hjp, hjf, hrun, hdone⟩, hmain⟩ := hInv
  cases a with
  | extSet st => simp [Act.isInternal] at hint
  | extDel => simp [Act.isInternal] at hint
  | mainFinish =>
    by_cases hmd : s.mainDone
    · have heq : doAct s .mainFinish = s := by simp [doAct, hmd]
      rw [heq]
      exact ⟨houts, hq, hbound, hinj, hnoC, hfin, ⟨j, hj, hjp, hjf, hrun, hdone⟩, hmain⟩
    · have hanyf : anyFinC s = false := by
        cases hb : anyFinC s
        · rfl
        · obtain ⟨w, hw2, hfc⟩ := (anyFinC_true_iff s).mp hb
          exact absurd hfc (hnoC w hw2)
      by_cases haf : allFin s = true
      · have heq : doAct s .mainFinish
            = { s with job := s.job.map markCompleted, mainDone := true } := by
          simp [doAct, hmd, hanyf, haf]
        rw [heq]
        have hidx : completedIdx
            { s with job := s.job.map markCompleted, mainDone := true }
            = completedIdx s := rfl
        refine ⟨houts, hq, hbound, hinj, hnoC, hfin, ?_, ?_⟩
        · refine ⟨markCompleted j, by rw [hj]; rfl, ?_, ?_, ?_, ?_⟩
          · rw [okCnt_congr s _ hidx rfl]; exact hjp
          · rw [errCnt_congr s _ hidx rfl]; exact hjf
          · intro hfalse; exact Bool.noConfusion hfalse
          · intro _; exact ⟨rfl, rfl⟩
        · intro _ w hw2
          exact (allFin_true_iff s).mp haf w hw2
      · have heq : doAct s .mainFinish = s := by
          simp [doAct, hmd, hanyf, haf]
        rw [heq]
        exact ⟨houts, hq, hbound, hinj, hnoC, hfin, ⟨j, hj, hjp, hjf, hrun, hdone⟩, hmain⟩
  | wrk w =>
    by_cases hw : w < s.wn
    · cases hpc : s.workers w with
    | finC => exact absurd hpc (hnoC w hw)
    | fin =>
      have heq : doAct s (.wrk w) = s := by
        show (wStep s w).getD s = s
        simp [wStep, hw, hpc]
      rw [heq]
      exact ⟨houts, hq, hbound, hinj, hnoC, hfin, ⟨j, hj, hjp, hjf, hrun, hdone⟩, hmain⟩
    | check =>
      have hmd : s.mainDone = false := by
        cases hb : s.mainDone with
        | false => rfl
        | true =>
          have hft := hmain hb w hw
          rw [hpc] at hft
          exact WPC.noConfusion hft
      have hst : j.status = .running := (hrun hmd).1
      have heq : doAct s (.wrk w)
          = { s with workers := Function.update s.workers w .take } := by
        show (wStep s w).getD s = _
        simp [wStep, hw, hpc, hj, hst]
      rw [heq]
      have hold : ∀ i, s.workers w ≠ .work i := by
        intro i2; rw [hpc]; simp
      have hifl : ∀ i,
          inFlightF s.wn (Function.update s.workers w WPC.take) i
            = inFlightF s.wn s.workers i :=
        fun i => inFlight_update_nonwork s.wn w s.workers .take hold (by intro i2; simp) i
      have hidx : completedIdx { s with workers := Function.update s.workers w .take }
          = completedIdx s := completedIdx_congr s _ rfl hifl
      have HB : ∀ w2, w2 < s.wn → ∀ i,
          Function.update s.workers w WPC.take w2 = .work i → i < s.qIdx := by
        intro w2 hw2 i hfe
        by_cases he : w2 = w
        · subst he; rw [Function.update_same] at hfe; exact WPC.noConfusion hfe
        · rw [Function.update_noteq he] at hfe; exact hbound w2 hw2 i hfe
      have HI : ∀ w1, w1 < s.wn → ∀ w2, w2 < s.wn → ∀ i,
          Function.update s.workers w WPC.take w1 = .work i →
          Function.update s.workers w WPC.take w2 = .work i → w1 = w2 := by
        intro w1 hw1 w2 hw2 i hf1 hf2
        by_cases he1 : w1 = w
        · subst he1; rw [Function.update_same] at hf1; exact WPC.noConfusion hf1
        · by_cases he2 : w2 = w
          · subst he2; rw [Function.update_same] at hf2; exact WPC.noConfusion hf2
          · rw [Function.update_noteq he1] at hf1
            rw [Function.update_noteq he2] at hf2
            exact hinj w1 hw1 w2 hw2 i hf1 hf2
      have HC : ∀ w2, w2 < s.wn → Function.update s.workers w WPC.take w2 ≠ .finC := by
        intro w2 hw2
        by_cases he : w2 = w
        · subst he; rw [Function.update_same]; simp
        · rw [Function.update_noteq he]; exact hnoC w2 hw2
      have HF : ∀ w2, w2 < s.wn →
          Function.update s.workers w WPC.take w2 = .fin → s.qIdx = outs.length := by
        intro w2 hw2 hfe
        by_cases he : w2 = w
        · subst he; rw [Function.update_same] at hfe; exact WPC.noConfusion hfe
        · rw [Function.update_noteq he] at hfe; exact hfin w2 hw2 hfe
      refine ⟨houts, hq, HB, HI, HC, HF, ?_, ?_⟩
      · refine ⟨j, hj, ?_, ?_, fun _ => hrun hmd, ?_⟩
        · rw [okCnt_congr s _ hidx rfl]; exact hjp
        · rw [errCnt_congr s _ hidx rfl]; exact hjf
        · intro hmd2
          rw [show ({ s with workers := Function.update s.workers w WPC.take } : CState).mainDone
              = s.mainDone from rfl, hmd] at hmd2
          exact Bool.noConfusion hmd2
      · intro hmd2
        rw [show ({ s with workers := Function.update s.workers w WPC.take } : CState).mainDone
            = s.mainDone from rfl, hmd] at hmd2
        exact Bool.noConfusion hmd2
    | take =>
      have hmd : s.mainDone = false := by
        cases hb : s.mainDone with
        | false => rfl
        | true =>
          have hft := hmain hb w hw
          rw [hpc] at hft
          exact WPC.noConfusion hft
      have hold : ∀ i, s.workers w ≠ .work i := by
        intro i2; rw [hpc]; simp
      by_cases hqlt : s.qIdx < s.outs.length
      · -- hand out position qIdx
        have heq : doAct s (.wrk w)
            = { s with workers := Function.update s.workers w (.work s.qIdx), qIdx := s.qIdx + 1 } := by
          show (wStep s w).getD s = _
          simp [wStep, hw, hpc, hqlt]
        rw [heq]
        have hifl : ∀ i,
            inFlightF s.wn (Function.update s.workers w (WPC.work s.qIdx)) i
              = (inFlightF s.wn s.workers i || decide (i = s.qIdx)) :=
          fun i => inFlight_update_to_work s.wn w s.qIdx s.workers hw hold i
        have hidx : completedIdx
            { s with workers := Function.update s.workers w (.work s.qIdx), qIdx := s.qIdx + 1 }
            = completedIdx s := by
          apply Finset.ext
          intro i
          simp only [completedIdx, Finset.mem_filter, Finset.mem_range]
          constructor
          · rintro ⟨hi, hfl⟩
            have hi2 : i < s.qIdx + 1 := hi
            have hfl2 : (inFlightF s.wn s.workers i || decide (i = s.qIdx)) = false := by
              rw [← hifl i]; exact hfl
            obtain ⟨h1, h2⟩ := bor_false_parts _ _ hfl2
            have hne : i ≠ s.qIdx := by simpa using h2
            exact ⟨by omega, h1⟩
          · rintro ⟨hi, hfl⟩
            have hne : i ≠ s.qIdx := by omega
            refine ⟨show i < s.qIdx + 1 by omega, ?_⟩
            show inFlightF s.wn (Function.update s.workers w (WPC.work s.qIdx)) i = false
            rw [hifl i, show inFlightF s.wn s.workers i = false from hfl]
            simp [hne]
        have HB : ∀ w2, w2 < s.wn → ∀ i,
            Function.update s.workers w (WPC.work s.qIdx) w2 = .work i →
            i < s.qIdx + 1 := by
          intro w2 hw2 i hfe
          by_cases he : w2 = w
          · subst he; rw [Function.update_same] at hfe
            injection hfe with h; omega
          · rw [Function.update_noteq he] at hfe
            have := hbound w2 hw2 i hfe; omega
        have HI : ∀ w1, w1 < s.wn → ∀ w2, w2 < s.wn → ∀ i,
            Function.update s.workers w (WPC.work s.qIdx) w1 = .work i →
            Function.update s.workers w (WPC.work s.qIdx) w2 = .work i → w1 = w2 := by
          intro w1 hw1 w2 hw2 i hf1 hf2
          by_cases he1 : w1 = w
          · by_cases he2 : w2 = w
            · rw [he1, he2]
            · subst he1; rw [Function.update_same] at hf1
              rw [Function.update_noteq he2] at hf2
              injection hf1 with h
              subst h
              have := hbound w2 hw2 _ hf2
              omega
          · by_cases he2 : w2 = w
            · subst he2; rw [Function.update_same] at hf2
              rw [Function.update_noteq he1] at hf1
              injection hf2 with h
              subst h
              have := hbound w1 hw1 _ hf1
              omega
            · rw [Function.update_noteq he1] at hf1
              rw [Function.update_noteq he2] at hf2
              exact hinj w1 hw1 w2 hw2 i hf1 hf2
        have HC : ∀ w2, w2 < s.wn →
            Function.update s.workers w (WPC.work s.qIdx) w2 ≠ .finC := by
          intro w2 hw2
          by_cases he : w2 = w
          · subst he; rw [Function.update_same]; simp
          · rw [Function.update_noteq he]; exact hnoC w2 hw2
        have HF : ∀ w2, w2 < s.wn →
            Function.update s.workers w (WPC.work s.qIdx) w2 = .fin →
            s.qIdx + 1 = outs.length := by
          intro w2 hw2 hfe
          by_cases he : w2 = w
          · subst he; rw [Function.update_same] at hfe; exact WPC.noConfusion hfe
          · rw [Function.update_noteq he] at hfe
            have := hfin w2 hw2 hfe
            rw [houts] at hqlt
            omega
        refine ⟨houts, ?_, HB, HI, HC, HF, ?_, ?_⟩
        · show s.qIdx + 1 ≤ outs.length
          rw [houts] at hqlt
          omega
        · refine ⟨j, hj, ?_, ?_, fun _ => hrun hmd, ?_⟩
          · rw [okCnt_congr s _ hidx rfl]; exact hjp
          · rw [errCnt_congr s _ hidx rfl]; exact hjf
          · intro hmd2
            rw [show ({ s with workers := Function.update s.workers w (WPC.work s.qIdx), qIdx := s.qIdx + 1 } : CState).mainDone = s.mainDone from rfl, hmd] at hmd2
            exact Bool.noConfusion hmd2
        · intro hmd2
          rw [show ({ s with workers := Function.update s.workers w (WPC.work s.qIdx), qIdx := s.qIdx + 1 } : CState).mainDone = s.mainDone from rfl, hmd] at hmd2
          exact Bool.noConfusion hmd2
      · -- queue exhausted: the worker returns
        have heq : doAct s (.wrk w)
            = { s with workers := Function.update s.workers w .fin } := by
          show (wStep s w).getD s = _
          simp [wStep, hw, hpc, hqlt]
        rw [heq]
        have hifl : ∀ i,
            inFlightF s.wn (Function.update s.workers w WPC.fin) i
              = inFlightF s.wn s.workers i :=
          fun i => inFlight_update_nonwork s.wn w s.workers .fin hold (by intro i2; simp) i
        have hidx : completedIdx { s with workers := Function.update s.workers w .fin }
            = completedIdx s := completedIdx_congr s _ rfl hifl
        have hqeq : s.qIdx = outs.length := by
          rw [houts] at hqlt
          omega
        have HB : ∀ w2, w2 < s.wn → ∀ i,
            Function.update s.workers w WPC.fin w2 = .work i → i < s.qIdx := by
          intro w2 hw2 i hfe
          by_cases he : w2 = w
          · subst he; rw [Function.update_same] at hfe; exact WPC.noConfusion hfe
          · rw [Function.update_noteq he] at hfe; exact hbound w2 hw2 i hfe
        have HI : ∀ w1, w1 < s.wn → ∀ w2, w2 < s.wn → ∀ i,
            Function.update s.workers w WPC.fin w1 = .work i →
            Function.update s.workers w WPC.fin w2 = .work i → w1 = w2 := by
          intro w1 hw1 w2 hw2 i hf1 hf2
          by_cases he1 : w1 = w
          · subst he1; rw [Function.update_same] at hf1; exact WPC.noConfusion hf1
          · by_cases he2 : w2 = w
            · subst he2; rw [Function.update_same] at hf2; exact WPC.noConfusion hf2
            · rw [Function.update_noteq he1] at hf1
              rw [Function.update_noteq he2] at hf2
              exact hinj w1 hw1 w2 hw2 i hf1 hf2
        have HC : ∀ w2, w2 < s.wn →
            Function.update s.workers w WPC.fin w2 ≠ .finC := by
          intro w2 hw2
          by_cases he : w2 = w
          · subst he; rw [Function.update_same]; simp
          · rw [Function.update_noteq he]; exact hnoC w2 hw2
        have HF : ∀ w2, w2 < s.wn →
            Function.update s.workers w WPC.fin w2 = .fin → s.qIdx = outs.length := by
          intro w2 hw2 hfe
          exact hqeq
        refine ⟨houts, hq, HB, HI, HC, HF, ?_, ?_⟩
        · refine ⟨j, hj, ?_, ?_, fun _ => hrun hmd, ?_⟩
          · rw [okCnt_congr s _ hidx rfl]; exact hjp
          · rw [errCnt_congr s _ hidx rfl]; exact hjf
          · intro hmd2
            rw [show ({ s with workers := Function.update s.workers w WPC.fin } : CState).mainDone
                = s.mainDone from rfl, hmd] at hmd2
            exact Bool.noConfusion hmd2
        · intro hmd2
          rw [show ({ s with workers := Function.update s.workers w WPC.fin } : CState).mainDone
              = s.mainDone from rfl, hmd] at hmd2
          exact Bool.noConfusion hmd2
    | work i0 =>
      have hmd : s.mainDone = false := by
        cases hb : s.mainDone with
        | false => rfl
        | true =>
          have hft := hmain hb w hw
          rw [hpc] at hft
          exact WPC.noConfusion hft
      have hi0 : i0 < s.qIdx := hbound w hw i0 hpc
      have hi0len : i0 < s.outs.length := by
        rw [houts]; omega
      cases ho : s.outs.get? i0 with
      | none =>
        exfalso
        rw [List.get?_eq_none] at ho
        omega
      | some o =>
        have homem : o ∈ outs := by rw [← houts]; exact List.get?_mem ho
        have hinjw : ∀ w2, w2 < s.wn → s.workers w2 = .work i0 → w2 = w :=
          fun w2 hw2 hfe => hinj w2 hw2 w hw i0 hfe hpc
        have hfli0 : inFlightF s.wn s.workers i0 = true :=
          (inFlight_iff s.wn s.workers i0).mpr ⟨w, hw, hpc⟩
        have hnotmem : i0 ∉ completedIdx s := by
          simp only [completedIdx, Finset.mem_filter, Finset.mem_range]
          rintro ⟨hi, hfl⟩
          rw [show inFlightB s i0 = inFlightF s.wn s.workers i0 from rfl, hfli0] at hfl
          exact Bool.noConfusion hfl
        cases o with
        | hardblock => exact absurd rfl (hhb .hardblock homem)
        | ok =>
          have ho2 : s.outs[i0]? = some Outcome.ok := by
            rw [← List.get?_eq_getElem?]; exact ho
          have heq : doAct s (.wrk w)
              = { s with job := s.job.map incProcessed, workers := Function.update s.workers w .check } := by
            show (wStep s w).getD s = _
            simp [wStep, hw, hpc, ho2]
          rw [heq]
          have hifl : ∀ i,
              inFlightF s.wn (Function.update s.workers w WPC.check) i
                = (inFlightF s.wn s.workers i && ! decide (i = i0)) :=
            fun i => inFlight_update_from_work s.wn w i0 s.workers .check hw hpc
              (by intro i2; simp) hinjw i
          have hidx : completedIdx
              { s with job := s.job.map incProcessed, workers := Function.update s.workers w .check }
              = insert i0 (completedIdx s) := by
            apply Finset.ext
            intro i
            simp only [completedIdx, Finset.mem_filter, Finset.mem_range, Finset.mem_insert]
            constructor
            · rintro ⟨hi, hfl⟩
              have hi2 : i < s.qIdx := hi
              have hfl2 : (inFlightF s.wn s.workers i && ! decide (i = i0)) = false := by
                rw [← hifl i]; exact hfl
              rcases band_false_cases _ _ hfl2 with h1 | h2
              · exact .inr ⟨hi2, h1⟩
              · left; simpa using h2
            · rintro (heq2 | ⟨hi, hfl⟩)
              · subst heq2
                refine ⟨hi0, ?_⟩
                show inFlightF s.wn (Function.update s.workers w WPC.check) i = false
                rw [hifl i]
                simp
              · refine ⟨hi, ?_⟩
                show inFlightF s.wn (Function.update s.workers w WPC.check) i = false
                rw [hifl i, show inFlightF s.wn s.workers i = false from hfl]
                simp
          have hoki : isOkAt s.outs i0 = true := by
            simp [isOkAt, ho2]
          have herri : isErrAt s.outs i0 = false := by
            simp [isErrAt, ho2]
          have hok : okCnt { s with job := s.job.map incProcessed, workers := Function.update s.workers w .check } = okCnt s + 1 := by
            unfold okCnt
            rw [show ({ s with job := s.job.map incProcessed, workers := Function.update s.workers w .check } : CState).outs
                = s.outs from rfl, hidx, Finset.filter_insert, if_pos hoki,
              Finset.card_insert_of_not_mem
                (fun hmem => hnotmem (Finset.mem_of_mem_filter i0 hmem))]
          have herr : errCnt { s with job := s.job.map incProcessed, workers := Function.update s.workers w .check } = errCnt s := by
            unfold errCnt
            rw [show ({ s with job := s.job.map incProcessed, workers := Function.update s.workers w .check } : CState).outs
                = s.outs from rfl, hidx, Finset.filter_insert, if_neg (by rw [herri]; simp)]
          have HB : ∀ w2, w2 < s.wn → ∀ i,
              Function.update s.workers w WPC.check w2 = .work i → i < s.qIdx := by
            intro w2 hw2 i hfe
            by_cases he : w2 = w
            · subst he; rw [Function.update_same] at hfe; exact WPC.noConfusion hfe
            · rw [Function.update_noteq he] at hfe; exact hbound w2 hw2 i hfe
          have HI : ∀ w1, w1 < s.wn → ∀ w2, w2 < s.wn → ∀ i,
              Function.update s.workers w WPC.check w1 = .work i →
              Function.update s.workers w WPC.check w2 = .work i → w1 = w2 := by
            intro w1 hw1 w2 hw2 i hf1 hf2
            by_cases he1 : w1 = w
            · subst he1; rw [Function.update_same] at hf1; exact WPC.noConfusion hf1
            · by_cases he2 : w2 = w
              · subst he2; rw [Function.update_same] at hf2; exact WPC.noConfusion hf2
              · rw [Function.update_noteq he1] at hf1
                rw [Function.update_noteq he2] at hf2
                exact hinj w1 hw1 w2 hw2 i hf1 hf2
          have HC : ∀ w2, w2 < s.wn →
              Function.update s.workers w WPC.check w2 ≠ .finC := by
            intro w2 hw2
            by_cases he : w2 = w
            · subst he; rw [Function.update_same]; simp
            · rw [Function.update_noteq he]; exact hnoC w2 hw2
          have HF : ∀ w2, w2 < s.wn →
              Function.update s.workers w WPC.check w2 = .fin → s.qIdx = outs.length := by
            intro w2 hw2 hfe
            by_cases he : w2 = w
            · subst he; rw [Function.update_same] at hfe; exact WPC.noConfusion hfe
            · rw [Function.update_noteq he] at hfe; exact hfin w2 hw2 hfe
          refine ⟨houts, hq, HB, HI, HC, HF, ?_, ?_⟩
          · refine ⟨incProcessed j, by rw [hj]; rfl, ?_, ?_, ?_, ?_⟩
            · show j.processed_count + 1 = _
              rw [hok, hjp]
            · show j.failed_count = _
              rw [herr, hjf]
            · intro _
              exact hrun hmd
            · intro hmd2
              rw [show ({ s with job := s.job.map incProcessed, workers := Function.update s.workers w WPC.check } : CState).mainDone
                  = s.mainDone from rfl, hmd] at hmd2
              exact Bool.noConfusion hmd2
          · intro hmd2
            rw [show ({ s with job := s.job.map incProcessed, workers := Function.update s.workers w WPC.check } : CState).mainDone
                = s.mainDone from rfl, hmd] at hmd2
            exact Bool.noConfusion hmd2
        | err m2 =>
          have ho2 : s.outs[i0]? = some (Outcome.err m2) := by
            rw [← List.get?_eq_getElem?]; exact ho
          have heq : doAct s (.wrk w)
              = { s with job := s.job.map (incFailed m2), workers := Function.update s.workers w .check } := by
            show (wStep s w).getD s = _
            simp [wStep, hw, hpc, ho2]
          rw [heq]
          have hifl : ∀ i,
              inFlightF s.wn (Function.update s.workers w WPC.check) i
                = (inFlightF s.wn s.workers i && ! decide (i = i0)) :=
            fun i => inFlight_update_from_work s.wn w i0 s.workers .check hw hpc
              (by intro i2; simp) hinjw i
          have hidx : completedIdx
              { s with job := s.job.map (incFailed m2), workers := Function.update s.workers w .check }
              = insert i0 (completedIdx s) := by
            apply Finset.ext
            intro i
            simp only [completedIdx, Finset.mem_filter, Finset.mem_range, Finset.mem_insert]
            constructor
            · rintro ⟨hi, hfl⟩
              have hi2 : i < s.qIdx := hi
              have hfl2 : (inFlightF s.wn s.workers i && ! decide (i = i0)) = false := by
                rw [← hifl i]; exact hfl
              rcases band_false_cases _ _ hfl2 with h1 | h2
              · exact .inr ⟨hi2, h1⟩
              · left; simpa using h2
            · rintro (heq2 | ⟨hi, hfl⟩)
              · subst heq2
                refine ⟨hi0, ?_⟩
                show inFlightF s.wn (Function.update s.workers w WPC.check) i = false
                rw [hifl i]
                simp
              · refine ⟨hi, ?_⟩
                show inFlightF s.wn (Function.update s.workers w WPC.check) i = false
                rw [hifl i, show inFlightF s.wn s.workers i = false from hfl]
                simp
          have hoki : isOkAt s.outs i0 = false := by
            simp [isOkAt, ho2]
          have herri : isErrAt s.outs i0 = true := by
            simp [isErrAt, ho2]
          have hok : okCnt { s with job := s.job.map (incFailed m2), workers := Function.update s.workers w .check } = okCnt s := by
            unfold okCnt
            rw [show ({ s with job := s.job.map (incFailed m2), workers := Function.update s.workers w .check } : CState).outs
                = s.outs from rfl, hidx, Finset.filter_insert, if_neg (by rw [hoki]; simp)]
          have herr : errCnt { s with job := s.job.map (incFailed m2), workers := Function.update s.workers w .check } = errCnt s + 1 := by
            unfold errCnt
            rw [show ({ s with job := s.job.map (incFailed m2), workers := Function.update s.workers w .check } : CState).outs
                = s.outs from rfl, hidx, Finset.filter_insert, if_pos herri,
              Finset.card_insert_of_not_mem
                (fun hmem => hnotmem (Finset.mem_of_mem_filter i0 hmem))]
          have HB : ∀ w2, w2 < s.wn → ∀ i,
              Function.update s.workers w WPC.check w2 = .work i → i < s.qIdx := by
            intro w2 hw2 i hfe
            by_cases he : w2 = w
            · subst he; rw [Function.update_same] at hfe; exact WPC.noConfusion hfe
            · rw [Function.update_noteq he] at hfe; exact hbound w2 hw2 i hfe
          have HI : ∀ w1, w1 < s.wn → ∀ w2, w2 < s.wn → ∀ i,
              Function.update s.workers w WPC.check w1 = .work i →
              Function.update s.workers w WPC.check w2 = .work i → w1 = w2 := by
            intro w1 hw1 w2 hw2 i hf1 hf2
            by_cases he1 : w1 = w
            · subst he1; rw [Function.update_same] at hf1; exact WPC.noConfusion hf1
            · by_cases he2 : w2 = w
              · subst he2; rw [Function.update_same] at hf2; exact WPC.noConfusion hf2
              · rw [Function.update_noteq he1] at hf1
                rw [Function.update_noteq he2] at hf2
                exact hinj w1 hw1 w2 hw2 i hf1 hf2
          have HC : ∀ w2, w2 < s.wn →
              Function.update s.workers w WPC.check w2 ≠ .finC := by
            intro w2 hw2
            by_cases he : w2 = w
            · subst he; rw [Function.update_same]; simp
            · rw [Function.update_noteq he]; exact hnoC w2 hw2
          have HF : ∀ w2, w2 < s.wn →
              Function.update s.workers w WPC.check w2 = .fin → s.qIdx = outs.length := by
            intro w2 hw2 hfe
            by_cases he : w2 = w
            · subst he; rw [Function.update_same] at hfe; exact WPC.noConfusion hfe
            · rw [Function.update_noteq he] at hfe; exact hfin w2 hw2 hfe
          refine ⟨houts, hq, HB, HI, HC, HF, ?_, ?_⟩
          · refine ⟨incFailed m2 j, by rw [hj]; rfl, ?_, ?_, ?_, ?_⟩
            · show j.processed_count = _
              rw [hok, hjp]
            · show j.failed_count + 1 = _
              rw [herr, hjf]
            · intro _
              exact hrun hmd
            · intro hmd2
              rw [show ({ s with job := s.job.map (incFailed m2), workers := Function.update s.workers w WPC.check } : CState).mainDone
                  = s.mainDone from rfl, hmd] at hmd2
              exact Bool.noConfusion hmd2
          · intro hmd2
            rw [show ({ s with job := s.job.map (incFailed m2), workers := Function.update s.workers w WPC.check } : CState).mainDone
                = s.mainDone from rfl, hmd] at hmd2
            exact Bool.noConfusion hmd2
    · have heq : doAct s (.wrk w) = s := by
        show (wStep s w).getD s = s
        unfold wStep
        rw [if_neg hw]
        rfl
      rw [heq]
      exact ⟨houts, hq, hbound, hinj, hnoC, hfin, ⟨j, hj, hjp, hjf, hrun, hdone⟩, hmain⟩

theorem CInv_init (wn : Nat) (outs : List Outcome) : CInv outs (initState wn outs) := by
  refine ⟨rfl, ?_, ?_, ?_, ?_, ?_, ?_, ?_⟩
  · show 0 ≤ outs.length; omega
  · intro w2 hw2 i hfe
    exact absurd hfe (by simp [initState])
  · intro w1 hw1 w2 hw2 i hf1 hf2
    exact absurd hf1 (by simp [initState])
  · intro w2 hw2
    simp [initState]
  · intro w2 hw2 hfe
    exact absurd hfe (by simp [initState])
  · refine ⟨initRow, rfl, ?_, ?_, fun _ => ⟨rfl, rfl⟩, fun h => Bool.noConfusion h⟩
    · show initRow.processed_count = okCnt (initState wn outs)
      simp [okCnt, completedIdx, initState, initRow]
    · show initRow.failed_count = errCnt (initState wn outs)
      simp [errCnt, completedIdx, initState, initRow]
  · intro h
    exact absurd h (by simp [initState])

theorem CInv_runActs (outs : List Outcome) (hhb : NoHB outs) (acts : List Act) :
    ∀ s : CState, CInv outs s → NoExt acts → CInv outs (runActs s acts) := by
  induction acts with
  | nil => intro s h _; exact h
  | cons a rest ih =>
    intro s h hne
    exact ih (doAct s a)
      (CInv_doAct outs s a hhb h (hne a (List.mem_cons_self a rest)))
      (fun a2 ha2 => hne a2 (List.mem_cons_of_mem a ha2))

/-- When the pool has settled (mainDone) under an internal schedule, every
candidate was handed out and completed exactly once, so the counters equal the
number of ok / err outcomes over the whole candidate list and the status is
completed. -/
theorem CInv_final (outs : List Outcome) (s : CState)
    (hInv : CInv outs s) (hw : 1 ≤ s.wn) (hmd : s.mainDone = true) :
    ∃ j, s.job = some j ∧
      j.processed_count
        = ((Finset.range outs.length).filter fun i => isOkAt outs i = true).card ∧
      j.failed_count
        = ((Finset.range outs.length).filter fun i => isErrAt outs i = true).card ∧
      j.status = .completed ∧ j.finished_at = some 0 := by
  obtain ⟨houts, hq, hbound, hinj, hnoC, hfin, ⟨j, hj, hjp, hjf, hrun, hdone⟩, hmain⟩ := hInv
  have hallfin := hmain hmd
  have hqlen : s.qIdx = outs.length := hfin 0 hw (hallfin 0 hw)
  have hnofl : ∀ i, inFlightB s i = false := by
    intro i
    cases hb : inFlightB s i with
    | false => rfl
    | true =>
      obtain ⟨w2, hw2, hfe⟩ := (inFlight_iff s.wn s.workers i).mp hb
      rw [hallfin w2 hw2] at hfe
      exact WPC.noConfusion hfe
  have hcomp : completedIdx s = Finset.range outs.length := by
    unfold completedIdx
    rw [hqlen]
    apply Finset.filter_true_of_mem
    intro i _
    exact hnofl i
  refine ⟨j, hj, ?_, ?_, (hdone hmd).1, (hdone hmd).2⟩
  · rw [hjp]; unfold okCnt; rw [hcomp, houts]
  · rw [hjf]; unfold errCnt; rw [hcomp, houts]

theorem get?_replicate_lt (x : Outcome) :
    ∀ n i : Nat, i < n → (List.replicate n x).get? i = some x := by
  intro n
  induction n with
  | zero => intro i hi; omega
  | succ n2 ih =>
    intro i hi
    cases i with
    | zero => rfl
    | succ i2 => exact ih i2 (by omega)

theorem get?_okErr (k nf : Nat) (m : String) :
    ∀ i, i < k + nf →
      (List.replicate k Outcome.ok ++ List.replicate nf (Outcome.err m)).get? i
        = some (if i < k then Outcome.ok else Outcome.err m) := by
  induction k with
  | zero =>
    intro i hi
    rw [if_neg (by omega)]
    simpa using get?_replicate_lt (Outcome.err m) nf i (by omega)
  | succ k2 ih =>
    intro i hi
    cases i with
    | zero => rw [if_pos (by omega)]; rfl
    | succ i2 =>
      have h2 := ih i2 (by omega)
      have hcons :
          (List.replicate (k2 + 1) Outcome.ok ++ List.replicate nf (Outcome.err m)).get? (i2 + 1)
            = (List.replicate k2 Outcome.ok ++ List.replicate nf (Outcome.err m)).get? i2 := rfl
      rw [hcons, h2]
      by_cases hc : i2 < k2
      · rw [if_pos hc, if_pos (by omega)]
      · rw [if_neg hc, if_neg (by omega)]

theorem NoHB_okErr (k nf : Nat) (m : String) :
    NoHB (List.replicate k Outcome.ok ++ List.replicate nf (Outcome.err m)) := by
  intro o ho
  rcases List.mem_append.mp ho with h | h
  · rw [List.eq_of_mem_replicate h]; simp
  · rw [List.eq_of_mem_replicate h]; simp

theorem count_ok_okErr (k nf : Nat) (m : String) :
    ((Finset.range (k + nf)).filter
      fun i => isOkAt (List.replicate k Outcome.ok ++ List.replicate nf (Outcome.err m)) i
        = true).card = k := by
  have hset : ((Finset.range (k + nf)).filter
      fun i => isOkAt (List.replicate k Outcome.ok ++ List.replicate nf (Outcome.err m)) i
        = true)
      = Finset.range k := by
    apply Finset.ext
    intro i
    simp only [Finset.mem_filter, Finset.mem_range]
    constructor
    · rintro ⟨hi, hok⟩
      by_contra hik
      unfold isOkAt at hok
      rw [get?_okErr k nf m i hi, if_neg hik] at hok
      simp at hok
    · intro hik
      refine ⟨by omega, ?_⟩
      unfold isOkAt
      rw [get?_okErr k nf m i (by omega), if_pos hik]
  rw [hset, Finset.card_range]

/-- With no hard block in the outcomes, the ok and err counts over the whole
candidate list partition it. -/
theorem ok_add_err_of_NoHB (outs : List Outcome) (hhb : NoHB outs) :
    ((Finset.range outs.length).filter fun i => isOkAt outs i = true).card +
    ((Finset.range outs.length).filter fun i => isErrAt outs i = true).card
      = outs.length := by
  have hcongr : ∀ i ∈ Finset.range outs.length,
      (isErrAt outs i = true) ↔ ¬ (isOkAt outs i = true) := by
    intro i hi
    rw [Finset.mem_range] at hi
    cases ho : outs.get? i with
    | none =>
      rw [List.get?_eq_none] at ho
      omega
    | some o =>
      have hne := hhb o (List.get?_mem ho)
      cases o with
      | ok => unfold isOkAt isErrAt; rw [ho]; simp
      | err m2 => unfold isOkAt isErrAt; rw [ho]; simp
      | hardblock => exact absurd rfl hne
  rw [Finset.filter_congr hcongr]
  have htot := @Finset.filter_card_add_filter_neg_card_eq_card ℕ
    (Finset.range outs.length) (fun i => isOkAt outs i = true) _ _
  rw [Finset.card_range] at htot
  exact htot

/-- C5: over a candidate set where the first k scrapes succeed and the
remaining nf fail non-fatally, any internal schedule of any pool size that
reaches the pool-exit write ends with processed_count = k, failed_count = nf
and status completed. -/
theorem C5_counter_accuracy (wn k nf : Nat) (m : String) (acts : List Act)
    (hw : 1 ≤ wn) (hacts : NoExt acts)
    (hdone : (runActs (initState wn
        (List.replicate k Outcome.ok ++ List.replicate nf (Outcome.err m))) acts).mainDone
      = true) :
    ∃ j, (runActs (initState wn
        (List.replicate k Outcome.ok ++ List.replicate nf (Outcome.err m))) acts).job
        = some j ∧
      j.processed_count = k ∧ j.failed_count = nf ∧
      j.status = .completed ∧ j.finished_at = some 0 := by
  have hhb := NoHB_okErr k nf m
  have hInv := CInv_runActs _ hhb acts _
    (CInv_init wn (List.replicate k Outcome.ok ++ List.replicate nf (Outcome.err m))) hacts
  have hwn : 1 ≤ (runActs (initState wn
      (List.replicate k Outcome.ok ++ List.replicate nf (Outcome.err m))) acts).wn := by
    rw [runActs_wn]; exact hw
  obtain ⟨j, hj, hp, hf, hst, hfin2⟩ := CInv_final _ _ hInv hwn hdone
  have hlen : (List.replicate k Outcome.ok ++ List.replicate nf (Outcome.err m)).length
      = k + nf := by simp
  have hok : j.processed_count = k := by
    rw [hp, hlen, count_ok_okErr]
  have hsum := ok_add_err_of_NoHB _ hhb
  have herr : j.failed_count = nf := by
    rw [hf]
    rw [hlen] at hsum ⊢
    rw [hlen] at hp
    have := count_ok_okErr k nf m
    omega
  exact ⟨j, hj, hok, herr, hst, hfin2⟩

/-- C5 witness: one worker, candidates [ok, err], sequential schedule. -/
theorem C5_counter_accuracy_witness :
    ∃ j, (runActs (initState 1
        (List.replicate 1 Outcome.ok ++ List.replicate 1 (Outcome.err "boom")))
        [Act.wrk 0, Act.wrk 0, Act.wrk 0, Act.wrk 0, Act.wrk 0, Act.wrk 0,
         Act.wrk 0, Act.wrk 0, Act.mainFinish]).job = some j ∧
      j.processed_count = 1 ∧ j.failed_count = 1 ∧
      j.status = .completed ∧ j.finished_at = some 0 :=
  C5_counter_accuracy 1 1 1 "boom"
    [Act.wrk 0, Act.wrk 0, Act.wrk 0, Act.wrk 0, Act.wrk 0, Act.wrk 0,
     Act.wrk 0, Act.wrk 0, Act.mainFinish]
    (by decide) (by decide) (by decide)

/-- While the status is paused, no worker segment and no pool-exit action can
change anything: the run is frozen exactly where it was. -/
theorem paused_frozen (wn : Nat) (outs : List Outcome) (hw : 1 ≤ wn) :
    ∀ acts : List Act, NoExt acts →
      runActs (pausedState wn outs) acts = pausedState wn outs := by
  intro acts
  induction acts with
  | nil => intro _; rfl
  | cons a rest ih =>
    intro hacts
    have ha := hacts a (List.mem_cons_self a rest)
    have hrest : NoExt rest := fun a2 ha2 => hacts a2 (List.mem_cons_of_mem a ha2)
    have hstep : doAct (pausedState wn outs) a = pausedState wn outs := by
      cases a with
      | wrk w =>
        show (wStep (pausedState wn outs) w).getD _ = _
        have hnone : wStep (pausedState wn outs) w = none := by
          by_cases hwlt : w < wn
          · simp [wStep, pausedState, initState, hwlt]
          · simp [wStep, pausedState, initState, hwlt]
        rw [hnone]
        rfl
      | mainFinish =>
        have hany : anyFinC (pausedState wn outs) = false := by
          simp [anyFinC, pausedState, initState, isFinC]
        have hall : allFin (pausedState wn outs) = false := by
          cases hb : allFin (pausedState wn outs) with
          | false => rfl
          | true =>
            have h3 : WPC.check = WPC.fin :=
              (allFin_true_iff _).mp hb 0 (by simpa [pausedState, initState] using hw)
            exact WPC.noConfusion h3
        have hmd0 : (pausedState wn outs).mainDone = false := rfl
        simp [doAct, hmd0, hany, hall]
      | extSet st => simp [Act.isInternal] at ha
      | extDel => simp [Act.isInternal] at ha
    rw [runActs, hstep]
    exact ih hrest

/-- C3: with the job row forced to paused before the workers run their first
check, every internal schedule leaves the run untouched — nothing dequeued,
both counters zero, status still paused; flipping the status to running puts
the run in exactly the fresh running state; and any internal schedule from
there that reaches the pool-exit write ends with every candidate counted
exactly once (processed = ok outcomes, failed = err outcomes, summing to the
whole candidate set) and status completed — no item lost or duplicated. -/
theorem C3_pause_blocks_then_resume_runs (wn : Nat) (outs : List Outcome)
    (acts1 acts2 : List Act) (hw : 1 ≤ wn) (hhb : NoHB outs)
    (h1 : NoExt acts1) (h2 : NoExt acts2) :
    (runActs (pausedState wn outs) acts1 = pausedState wn outs) ∧
    (doAct (runActs (pausedState wn outs) acts1) (.extSet .running)
      = initState wn outs) ∧
    ((runActs (initState wn outs) acts2).mainDone = true →
      ∃ j, (runActs (initState wn outs) acts2).job = some j ∧
        j.processed_count
          = ((Finset.range outs.length).filter fun i => isOkAt outs i = true).card ∧
        j.failed_count
          = ((Finset.range outs.length).filter fun i => isErrAt outs i = true).card ∧
        j.processed_count + j.failed_count = outs.length ∧
        j.status = .completed) := by
  have hfrozen := paused_frozen wn outs hw acts1 h1
  refine ⟨hfrozen, ?_, ?_⟩
  · rw [hfrozen]
    rfl
  · intro hdone
    have hInv := CInv_runActs outs hhb acts2 (initState wn outs) (CInv_init wn outs) h2
    have hwn : 1 ≤ (runActs (initState wn outs) acts2).wn := by
      rw [runActs_wn]; exact hw
    obtain ⟨j, hj, hp, hf, hst, _⟩ := CInv_final outs _ hInv hwn hdone
    refine ⟨j, hj, hp, hf, ?_, hst⟩
    rw [hp, hf]
    exact ok_add_err_of_NoHB outs hhb

/-- C3 witness: one worker, one ok candidate; a worker action and the
pool-exit action while paused change nothing, and after the resume flip the
sequential schedule completes with the single item processed once. -/
theorem C3_pause_blocks_then_resume_runs_witness :
    (runActs (pausedState 1 [Outcome.ok]) [Act.wrk 0, Act.mainFinish]
      = pausedState 1 [Outcome.ok]) ∧
    (∃ j, (runActs (initState 1 [Outcome.ok])
        [Act.wrk 0, Act.wrk 0, Act.wrk 0, Act.wrk 0, Act.wrk 0, Act.mainFinish]).job
        = some j ∧
      j.processed_count
        = ((Finset.range [Outcome.ok].length).filter
            fun i => isOkAt [Outcome.ok] i = true).card ∧
      j.failed_count
        = ((Finset.range [Outcome.ok].length).filter
            fun i => isErrAt [Outcome.ok] i = true).card ∧
      j.processed_count + j.failed_count = [Outcome.ok].length ∧
      j.status = .completed) :=
  ⟨(C3_pause_blocks_then_resume_runs 1 [Outcome.ok] [Act.wrk 0, Act.mainFinish]
      [Act.wrk 0, Act.wrk 0, Act.wrk 0, Act.wrk 0, Act.wrk 0, Act.mainFinish]
      (by decide) (by decide) (by decide) (by decide)).1,
   (C3_pause_blocks_then_resume_runs 1 [Outcome.ok] [Act.wrk 0, Act.mainFinish]
      [Act.wrk 0, Act.wrk 0, Act.wrk 0, Act.wrk 0, Act.wrk 0, Act.mainFinish]
      (by decide) (by decide) (by decide) (by decide)).2.2 (by decide)⟩

end Biaozhu
